import Mathlib

/-!
Verification of the local JSONL job archive of `JobStorage`
(`backend/supabase_job_storage.py`).

The archive file `resume_archive/archive.jsonl` is a sequence of lines;
each line is blank, unparseable text, or one JSON object (a record).
We shallowly embed the JSON values the archive manipulates, the archive
file, and the in-memory URL-index cache, and translate the archive
operations `archive_resume`, `mark_applied`, `list_archives`,
`archive_count` and `applied_count` from the source.

External inputs of the Python code (the parsed `job_details.json`, the
parsed `tailored_resume.json`, the `cleaned.txt` blob, the machine id and
`datetime.now()`) are passed as explicit parameters.  I/O failures (the
generic `except Exception` paths) are outside the model; file reads and
writes are modelled as pure state.
-/

/-- A JSON value, as produced by `json.loads`.  Objects are association
lists; the Python code only ever builds objects with distinct keys, so
first-key lookup coincides with Python dict lookup. -/
inductive JVal where
  | null
  | bool (b : Bool)
  | num (n : Int)
  | str (s : String)
  | arr (elems : List JVal)
  | obj (fields : List (String × JVal))

mutual

/-- Decidable equality of JSON values (Python `==` on parsed JSON),
written by hand because deriving does not handle the nesting through
`List`. -/
def JVal.decEq : (a b : JVal) → Decidable (a = b)
  | .null, .null => .isTrue rfl
  | .null, .bool _ => .isFalse (fun h => nomatch h)
  | .null, .num _ => .isFalse (fun h => nomatch h)
  | .null, .str _ => .isFalse (fun h => nomatch h)
  | .null, .arr _ => .isFalse (fun h => nomatch h)
  | .null, .obj _ => .isFalse (fun h => nomatch h)
  | .bool _, .null => .isFalse (fun h => nomatch h)
  | .bool a, .bool b =>
    match Bool.decEq a b with
    | .isTrue h => .isTrue (by rw [h])
    | .isFalse h => .isFalse (fun hc => h (JVal.bool.inj hc))
  | .bool _, .num _ => .isFalse (fun h => nomatch h)
  | .bool _, .str _ => .isFalse (fun h => nomatch h)
  | .bool _, .arr _ => .isFalse (fun h => nomatch h)
  | .bool _, .obj _ => .isFalse (fun h => nomatch h)
  | .num _, .null => .isFalse (fun h => nomatch h)
  | .num _, .bool _ => .isFalse (fun h => nomatch h)
  | .num a, .num b =>
    match Int.decEq a b with
    | .isTrue h => .isTrue (by rw [h])
    | .isFalse h => .isFalse (fun hc => h (JVal.num.inj hc))
  | .num _, .str _ => .isFalse (fun h => nomatch h)
  | .num _, .arr _ => .isFalse (fun h => nomatch h)
  | .num _, .obj _ => .isFalse (fun h => nomatch h)
  | .str _, .null => .isFalse (fun h => nomatch h)
  | .str _, .bool _ => .isFalse (fun h => nomatch h)
  | .str _, .num _ => .isFalse (fun h => nomatch h)
  | .str a, .str b =>
    match String.decEq a b with
    | .isTrue h => .isTrue (by rw [h])
    | .isFalse h => .isFalse (fun hc => h (JVal.str.inj hc))
  | .str _, .arr _ => .isFalse (fun h => nomatch h)
  | .str _, .obj _ => .isFalse (fun h => nomatch h)
  | .arr _, .null => .isFalse (fun h => nomatch h)
  | .arr _, .bool _ => .isFalse (fun h => nomatch h)
  | .arr _, .num _ => .isFalse (fun h => nomatch h)
  | .arr _, .str _ => .isFalse (fun h => nomatch h)
  | .arr xs, .arr ys =>
    match JVal.decEqList xs ys with
    | .isTrue h => .isTrue (by rw [h])
    | .isFalse h => .isFalse (fun hc => h (JVal.arr.inj hc))
  | .arr _, .obj _ => .isFalse (fun h => nomatch h)
  | .obj _, .null => .isFalse (fun h => nomatch h)
  | .obj _, .bool _ => .isFalse (fun h => nomatch h)
  | .obj _, .num _ => .isFalse (fun h => nomatch h)
  | .obj _, .str _ => .isFalse (fun h => nomatch h)
  | .obj _, .arr _ => .isFalse (fun h => nomatch h)
  | .obj fs, .obj gs =>
    match JVal.decEqFields fs gs with
    | .isTrue h => .isTrue (by rw [h])
    | .isFalse h => .isFalse (fun hc => h (JVal.obj.inj hc))

/-- Decidable equality of JSON array contents. -/
def JVal.decEqList : (xs ys : List JVal) → Decidable (xs = ys)
  | [], [] => .isTrue rfl
  | [], _ :: _ => .isFalse (fun h => nomatch h)
  | _ :: _, [] => .isFalse (fun h => nomatch h)
  | x :: xs, y :: ys =>
    match JVal.decEq x y with
    | .isFalse h => .isFalse (fun hc => h (List.head_eq_of_cons_eq hc))
    | .isTrue h1 =>
      match JVal.decEqList xs ys with
      | .isTrue h2 => .isTrue (by rw [h1, h2])
      | .isFalse h2 => .isFalse (fun hc => h2 (List.tail_eq_of_cons_eq hc))

/-- Decidable equality of JSON object contents. -/
def JVal.decEqFields : (xs ys : List (String × JVal)) → Decidable (xs = ys)
  | [], [] => .isTrue rfl
  | [], _ :: _ => .isFalse (fun h => nomatch h)
  | _ :: _, [] => .isFalse (fun h => nomatch h)
  | (k, v) :: xs, (k', v') :: ys =>
    match String.decEq k k' with
    | .isFalse h => .isFalse (fun hc => h (congrArg Prod.fst (List.head_eq_of_cons_eq hc)))
    | .isTrue hk =>
      match JVal.decEq v v' with
      | .isFalse h => .isFalse (fun hc => h (congrArg Prod.snd (List.head_eq_of_cons_eq hc)))
      | .isTrue hv =>
        match JVal.decEqFields xs ys with
        | .isTrue h2 => .isTrue (by rw [hk, hv, h2])
        | .isFalse h2 => .isFalse (fun hc => h2 (List.tail_eq_of_cons_eq hc))

end

instance : DecidableEq JVal := JVal.decEq

/-- Python `d.get(k)` on a dict: the value bound to `k`, if any. -/
def dictGet (d : List (String × JVal)) (k : String) : Option JVal :=
  match d with
  | [] => none
  | (k', v) :: rest => if k' = k then some v else dictGet rest k

/-- Python `d[k] = v` on a dict: replace the binding of `k` in place if
present, otherwise append a new binding at the end (Python dicts keep
insertion order). -/
def dictSet (d : List (String × JVal)) (k : String) (v : JVal) : List (String × JVal) :=
  match d with
  | [] => [(k, v)]
  | (k', v') :: rest => if k' = k then (k, v) :: rest else (k', v') :: dictSet rest k v

/-- Python truthiness of a JSON value (`if not url:` etc.). -/
def jtruthy : JVal → Bool
  | .null => false
  | .bool b => b
  | .num n => n != 0
  | .str s => s != ""
  | .arr es => !es.isEmpty
  | .obj fs => !fs.isEmpty

/-- One line of the archive file: blank (whitespace only), unparseable
text (raises `json.JSONDecodeError`), or one parsed JSON object.
Lines whose JSON parses to a non-object value are outside the model:
the code itself only writes objects, and on such a line `record.get`
raises an `AttributeError` that no claim exercises. -/
inductive Line where
  | blank
  | garbage (s : String)
  | record (fields : List (String × JVal))
  deriving DecidableEq

/-- The records of the parseable lines, in file order: the lines the
read loops keep after `line.strip()` / `json.loads` filtering. -/
def parsedRecords (lines : List Line) : List (List (String × JVal)) :=
  lines.filterMap fun l =>
    match l with
    | .record kvs => some kvs
    | _ => none

/-- The url values collected by `_build_url_index`: for every parseable
record that has a `url` key, its value.  The source stores them in a
Python set; the only operations used on it are membership tests and
insertion of a url known to be absent, so a list read up to membership
is an equivalent model. -/
def buildUrlIndexLines (lines : List Line) : List JVal :=
  lines.filterMap fun l =>
    match l with
    | .record kvs => dictGet kvs "url"
    | _ => none

/-- The state a `JobStorage` instance sees: the archive file
(`none` when `archive.jsonl` does not exist) and the cached in-memory
URL index `_url_index` (`none` when not yet built). -/
structure Storage where
  file : Option (List Line)
  urlIndex : Option (List JVal)
  deriving DecidableEq

/-- A fresh deployment: no archive file, no cached index. -/
def freshStorage : Storage := ⟨none, none⟩

/-- Translation of `_build_url_index`: return the cached index if
present, otherwise scan the archive file (empty when the file does not
exist). -/
def currentIndex (s : Storage) : List JVal :=
  match s.urlIndex with
  | some idx => idx
  | none =>
    match s.file with
    | none => []
    | some lines => buildUrlIndexLines lines

/-- The record `archive_resume` writes on the created path. -/
def mkRecord (url : JVal) (job_details tailored_resume : List (String × JVal))
    (raw_content machine_id now : String) : List (String × JVal) :=
  [("url", url),
   ("archived_at", .str now),
   ("machine_id", .str machine_id),
   ("job_details", .obj job_details),
   ("tailored_resume", .obj tailored_resume),
   ("raw_content", .str raw_content),
   ("applied", .bool false)]

/-- Result of `archive_resume`: the no-url failure, the already-exists
success, or the created success. -/
inductive ArchiveResult where
  | noUrl
  | alreadyExists (url : JVal)
  | created (url : JVal)
  deriving DecidableEq

/-- Translation of `archive_resume`.  `job_details` is the parsed
`job_details.json`, `tailored_resume` the parsed `tailored_resume.json`
(the empty object when that file is missing), `raw_content` the
`cleaned.txt` blob, `now` the `datetime.now().isoformat()` timestamp.
If `job_details` has no truthy `url`, fail without touching anything.
Otherwise consult the URL index (building and caching it on first use);
if the url is present, report already-exists without writing; else
append the new record as one line (creating the file if absent) and add
the url to the cached index. -/
def archive_resume (s : Storage)
    (job_details tailored_resume : List (String × JVal))
    (raw_content machine_id now : String) : Storage × ArchiveResult :=
  match dictGet job_details "url" with
  | none => (s, .noUrl)
  | some url =>
    if jtruthy url then
      let idx := currentIndex s
      if url ∈ idx then
        ({ s with urlIndex := some idx }, .alreadyExists url)
      else
        ({ file := some (s.file.getD [] ++ [Line.record
              (mkRecord url job_details tailored_resume raw_content machine_id now)]),
           urlIndex := some (idx ++ [url]) },
         .created url)
    else (s, .noUrl)

/-- The mutation `mark_applied` performs on a matching record:
`record["applied"] = True; record["applied_at"] = now`. -/
def markRecord (kvs : List (String × JVal)) (now : String) : List (String × JVal) :=
  dictSet (dictSet kvs "applied" (.bool true)) "applied_at" (.str now)

/-- Python `record.get("job_details", dict()).get(k, "Unknown")` used by
`mark_applied` for its `company` / `role` report.  A record whose
`job_details` is present but not an object raises in the source and is
outside the model. -/
def jdGetD (kvs : List (String × JVal)) (k : String) : JVal :=
  match dictGet kvs "job_details" with
  | some (.obj jd) => (dictGet jd k).getD (.str "Unknown")
  | _ => .str "Unknown"

/-- Result of `mark_applied`: the not-found failure (with its error
message) or success carrying company and role of the matched record. -/
inductive MarkResult where
  | notFound (err : String)
  | ok (company role : JVal)
  deriving DecidableEq

/-- Translation of `mark_applied`.  The read loop keeps the parseable
records in order, mutating each one whose `url` value equals the
argument string and remembering company/role of the last match; blank
and unparseable lines are skipped (hence dropped by the rewrite).  If no
record matched, nothing is written; otherwise the file is rewritten as
exactly the collected records. -/
def mark_applied (s : Storage) (url : String) (now : String) : Storage × MarkResult :=
  match s.file with
  | none => (s, .notFound "No archive exists")
  | some lines =>
    let recs := parsedRecords lines
    let newRecs := recs.map fun kvs =>
      if dictGet kvs "url" = some (.str url) then markRecord kvs now else kvs
    match (recs.filter fun kvs => dictGet kvs "url" = some (.str url)).getLast? with
    | none => (s, .notFound "URL not in archive")
    | some kvs =>
      ({ s with file := some (newRecs.map Line.record) },
       .ok (jdGetD kvs "company") (jdGetD kvs "role"))

/-- One summary row of `list_archives`. -/
structure Summary where
  url : Option JVal
  company : Option JVal
  role : Option JVal
  archived_at : Option JVal
  applied : JVal
  applied_at : Option JVal
  deriving DecidableEq

/-- Python `record.get("job_details", dict()).get(k)` used by
`list_archives`. -/
def jdGet (kvs : List (String × JVal)) (k : String) : Option JVal :=
  match dictGet kvs "job_details" with
  | some (.obj jd) => dictGet jd k
  | _ => none

/-- The summary `list_archives` builds from one record. -/
def mkSummary (kvs : List (String × JVal)) : Summary :=
  { url := dictGet kvs "url"
    company := jdGet kvs "company"
    role := jdGet kvs "role"
    archived_at := dictGet kvs "archived_at"
    applied := (dictGet kvs "applied").getD (.bool false)
    applied_at := dictGet kvs "applied_at" }

/-- Translation of `list_archives`: empty when the file does not exist,
otherwise one summary per parseable line, in file order. -/
def list_archives (s : Storage) : List Summary :=
  match s.file with
  | none => []
  | some lines => (parsedRecords lines).map mkSummary

/-- Whether a line strips to the empty string. -/
def lineBlank : Line → Bool
  | .blank => true
  | _ => false

/-- Translation of `archive_count`: 0 when the file does not exist,
otherwise the number of lines whose `strip()` is non-empty — parseable
or not. -/
def archive_count (s : Storage) : Nat :=
  match s.file with
  | none => 0
  | some lines => (lines.filter fun l => !lineBlank l).length

/-- Python `record.get("applied", False)` tested for truthiness. -/
def recApplied (kvs : List (String × JVal)) : Bool :=
  jtruthy ((dictGet kvs "applied").getD (.bool false))

/-- Translation of `applied_count`: 0 when the file does not exist,
otherwise the number of parseable records whose `applied` value is
truthy. -/
def applied_count (s : Storage) : Nat :=
  match s.file with
  | none => 0
  | some lines => ((parsedRecords lines).filter recApplied).length

/-- Arguments of one `archive_resume` call. -/
structure AppendArgs where
  job_details : List (String × JVal)
  tailored_resume : List (String × JVal)
  raw_content : String
  machine_id : String
  now : String
  deriving DecidableEq

/-- Run one `archive_resume` call from its packed arguments. -/
def runAppend (s : Storage) (a : AppendArgs) : Storage × ArchiveResult :=
  archive_resume s a.job_details a.tailored_resume a.raw_content a.machine_id a.now

/-- Run a sequence of `archive_resume` calls, collecting the results. -/
def runAppends (s : Storage) : List AppendArgs → Storage × List ArchiveResult
  | [] => (s, [])
  | a :: rest =>
    let step := runAppend s a
    let tail := runAppends step.1 rest
    (tail.1, step.2 :: tail.2)

/-- The `_url_index` cache is absent or agrees with the file: the states
a `JobStorage` instance can actually be in, since the cache is only ever
written by `_build_url_index` and the post-append insertion. -/
def cacheOk (s : Storage) : Prop :=
  s.urlIndex = none ∨ s.urlIndex = some (buildUrlIndexLines (s.file.getD []))

/-- The per-record invariant of C8: the record carries an `applied_at`
key exactly when its `applied` value is `true`. -/
def appliedInv (kvs : List (String × JVal)) : Prop :=
  (dictGet kvs "applied_at").isSome = true ↔ dictGet kvs "applied" = some (.bool true)

/-- The invariant over a (possibly missing) archive file: every
parseable record satisfies `appliedInv`. -/
def fileInv (f : Option (List Line)) : Prop :=
  ∀ kvs ∈ parsedRecords (f.getD []), appliedInv kvs

/-! Helper lemmas about the embedded dictionaries and file scans. -/

/-- Reading back the key just written by a Python dict assignment. -/
theorem dictGet_dictSet_same (d : List (String × JVal)) (k : String) (v : JVal) :
    dictGet (dictSet d k v) k = some v := by
  induction d with
  | nil => simp [dictSet, dictGet]
  | cons kv rest ih =>
    by_cases h : kv.1 = k
    · simp [dictSet, dictGet, h]
    · simp only [dictSet, dictGet, h, if_neg]
      simpa [h] using ih

/-- A Python dict assignment leaves every other key unchanged. -/
theorem dictGet_dictSet_diff (d : List (String × JVal)) (k k' : String) (v : JVal)
    (h : k' ≠ k) : dictGet (dictSet d k v) k' = dictGet d k' :=
  by
  induction d with
  | nil =>
    have hne : ¬(k = k') := fun hh => h hh.symm
    simp [dictSet, dictGet, hne]
  | cons kv rest ih =>
    by_cases hk : kv.1 = k
    · simp [dictSet, dictGet, hk, h, Ne.symm h]
    · simp only [dictSet, hk, if_neg, dictGet]
      by_cases hk' : kv.1 = k' <;> simp [hk', ih]

/-- The records of serialized records are the records themselves: the
rewrite loop of `mark_applied` writes exactly the lines it collected. -/
theorem parsedRecords_map_record (rs : List (List (String × JVal))) :
    parsedRecords (rs.map Line.record) = rs := by
  induction rs with
  | nil => rfl
  | cons r rest ih => simp [parsedRecords] at ih ⊢; exact ih

/-- Scanning an extended file scans the two parts in order. -/
theorem parsedRecords_append (xs ys : List Line) :
    parsedRecords (xs ++ ys) = parsedRecords xs ++ parsedRecords ys := by
  simp [parsedRecords, List.filterMap_append]

/-- Url index of an extended file. -/
theorem buildUrlIndexLines_append (xs ys : List Line) :
    buildUrlIndexLines (xs ++ ys) = buildUrlIndexLines xs ++ buildUrlIndexLines ys := by
  simp [buildUrlIndexLines, List.filterMap_append]

/-- A parsed record of the file contributes its url value to the index. -/
theorem mem_buildUrlIndexLines (lines : List Line) (kvs : List (String × JVal)) (u : JVal)
    (hk : kvs ∈ parsedRecords lines) (hu : dictGet kvs "url" = some u) :
    u ∈ buildUrlIndexLines lines := by
  obtain ⟨l, hl, hparse⟩ := List.mem_filterMap.mp hk
  refine List.mem_filterMap.mpr ⟨l, hl, ?_⟩
  cases l with
  | blank => simp at hparse
  | garbage s => simp at hparse
  | record fs =>
    simp only [Option.some.injEq] at hparse
    subst hparse
    exact hu

/-- If a url value is not in the index, no parsed record carries it. -/
theorem filter_url_of_not_mem (lines : List Line) (u : JVal)
    (h : u ∉ buildUrlIndexLines lines) :
    (parsedRecords lines).filter (fun kvs => decide (dictGet kvs "url" = some u)) = [] := by
  rw [List.filter_eq_nil_iff]
  intro kvs hk hdec
  exact h (mem_buildUrlIndexLines lines kvs u hk (of_decide_eq_true hdec))

/-- With a valid cache, `_build_url_index` returns exactly the urls of
the file. -/
theorem currentIndex_of_cacheOk (s : Storage) (hc : cacheOk s) :
    currentIndex s = buildUrlIndexLines (s.file.getD []) := by
  cases hc with
  | inl h =>
    unfold currentIndex
    rw [h]
    cases hf : s.file <;> simp [hf, buildUrlIndexLines]
  | inr h =>
    unfold currentIndex
    rw [h]

/-! Claim theorems. -/

/-- C10: when the archive file does not exist, `list_archives` returns
the empty list, `archive_count` returns 0 and `applied_count` returns 0,
without any error. -/
theorem missing_archive_defaults (s : Storage) (h : s.file = none) :
    list_archives s = [] ∧ archive_count s = 0 ∧ applied_count s = 0 := by
  refine ⟨?_, ?_, ?_⟩ <;> simp [list_archives, archive_count, applied_count, h]

/-- Witness for C10 at the fresh deployment state. -/
theorem missing_archive_defaults_witness :
    list_archives freshStorage = [] ∧ archive_count freshStorage = 0 ∧
      applied_count freshStorage = 0 :=
  missing_archive_defaults freshStorage rfl

/-- C7: when `job_details` has no `url` key, or its `url` value is
falsy, `archive_resume` returns the no-url failure, leaves the whole
state (in particular the archive file) unchanged, and `archive_count`
is unchanged. -/
theorem archive_resume_no_url (s : Storage) (jd tr : List (String × JVal))
    (rc mc now : String)
    (h : ∀ u, dictGet jd "url" = some u → jtruthy u = false) :
    archive_resume s jd tr rc mc now = (s, .noUrl) ∧
    archive_count (archive_resume s jd tr rc mc now).1 = archive_count s := by
  have heq : archive_resume s jd tr rc mc now = (s, .noUrl) := by
    unfold archive_resume
    cases hu : dictGet jd "url" with
    | none => rfl
    | some u => simp [h u hu]
  exact ⟨heq, by rw [heq]⟩

/-- Witness for C7: an empty `job_details` (no `url` key) and a
`job_details` with an empty-string url, both on the fresh state, where
the count stays 0. -/
theorem archive_resume_no_url_witness :
    archive_resume freshStorage [] [] "" "m" "t" = (freshStorage, .noUrl) ∧
    archive_resume freshStorage [("url", .str "")] [] "" "m" "t" = (freshStorage, .noUrl) ∧
    archive_count freshStorage = 0 :=
  ⟨(archive_resume_no_url freshStorage [] [] "" "m" "t" (by simp [dictGet])).1,
   (archive_resume_no_url freshStorage [("url", .str "")] [] "" "m" "t"
     (by intro u hu; simp [dictGet] at hu; rw [← hu]; rfl)).1,
   rfl⟩

/-- C3: whenever no parseable entry of the archive file has the given
url — in particular when the file does not exist, is empty, or has no
parseable entry at all — `mark_applied` returns a not-found failure and
leaves the state (in particular the archive file) untouched. -/
theorem mark_applied_not_found (s : Storage) (url now : String)
    (h : ∀ kvs ∈ parsedRecords (s.file.getD []), dictGet kvs "url" ≠ some (.str url)) :
    (mark_applied s url now).1 = s ∧
    ∃ e, (mark_applied s url now).2 = .notFound e := by
  cases hf : s.file with
  | none => simp [mark_applied, hf]
  | some lines =>
    have hfilter :
        (parsedRecords lines).filter
          (fun kvs => decide (dictGet kvs "url" = some (.str url))) = [] := by
      rw [List.filter_eq_nil_iff]
      intro kvs hk hdec
      exact h kvs (by simpa [hf] using hk) (of_decide_eq_true hdec)
    simp [mark_applied, hf, hfilter]

/-- Witness for C3 on a missing archive, an empty archive, an archive of
only garbage, and a non-empty archive without the url. -/
theorem mark_applied_not_found_witness :
    (mark_applied freshStorage "u" "t").1 = freshStorage ∧
    (mark_applied ⟨some [], none⟩ "u" "t").1 = (⟨some [], none⟩ : Storage) ∧
    (mark_applied ⟨some [Line.garbage "oops"], none⟩ "u" "t").1 =
      (⟨some [Line.garbage "oops"], none⟩ : Storage) ∧
    (mark_applied ⟨some [Line.record [("url", .str "v")]], none⟩ "u" "t").1 =
      (⟨some [Line.record [("url", .str "v")]], none⟩ : Storage) ∧
    ∃ e, (mark_applied ⟨some [Line.record [("url", .str "v")]], none⟩ "u" "t").2 =
      .notFound e :=
  ⟨(mark_applied_not_found freshStorage "u" "t" (by simp [freshStorage, parsedRecords])).1,
   (mark_applied_not_found ⟨some [], none⟩ "u" "t" (by simp [parsedRecords])).1,
   (mark_applied_not_found ⟨some [Line.garbage "oops"], none⟩ "u" "t"
     (by simp [parsedRecords])).1,
   (mark_applied_not_found ⟨some [Line.record [("url", .str "v")]], none⟩ "u" "t"
     (by intro kvs hk; simp [parsedRecords] at hk; simp [hk, dictGet])).1,
   (mark_applied_not_found ⟨some [Line.record [("url", .str "v")]], none⟩ "u" "t"
     (by intro kvs hk; simp [parsedRecords] at hk; simp [hk, dictGet])).2⟩

/-- Case analysis on what `archive_resume` does to the archive file:
either it leaves it alone, or it appends exactly the one new record. -/
theorem archive_resume_file_cases (s : Storage) (jd tr : List (String × JVal))
    (rc mc now : String) :
    (archive_resume s jd tr rc mc now).1.file = s.file ∨
    ∃ u, dictGet jd "url" = some u ∧ (archive_resume s jd tr rc mc now).2 = .created u ∧
      (archive_resume s jd tr rc mc now).1.file =
        some (s.file.getD [] ++ [Line.record (mkRecord u jd tr rc mc now)]) := by
  unfold archive_resume
  cases hu : dictGet jd "url" with
  | none => left; rfl
  | some u =>
    by_cases ht : jtruthy u
    · by_cases hm : u ∈ currentIndex s
      · left; simp [ht, hm]
      · right; exact ⟨u, rfl, by simp [ht, hm], by simp [ht, hm]⟩
    · left; simp [ht]

/-- C9: `archive_resume` never rewrites existing lines: on an
already-exists result (and on the no-url failure) the archive file is
exactly what it was, and on a created result it is the old file extended
with the single new record, every pre-existing line unchanged in place. -/
theorem archive_resume_frame (s : Storage) (jd tr : List (String × JVal))
    (rc mc now : String) :
    ((∃ u, (archive_resume s jd tr rc mc now).2 = .alreadyExists u) →
      (archive_resume s jd tr rc mc now).1.file = s.file) ∧
    (∀ u, (archive_resume s jd tr rc mc now).2 = .created u →
      (archive_resume s jd tr rc mc now).1.file =
        some (s.file.getD [] ++ [Line.record (mkRecord u jd tr rc mc now)])) ∧
    ((archive_resume s jd tr rc mc now).2 = .noUrl →
      (archive_resume s jd tr rc mc now).1.file = s.file) := by
  unfold archive_resume
  cases hu : dictGet jd "url" with
  | none => simp
  | some u =>
    by_cases ht : jtruthy u
    · by_cases hm : u ∈ currentIndex s
      · simp [ht, hm]
      · simp only [ht, if_true, hm, if_neg, not_false_iff]
        refine ⟨?_, ?_, ?_⟩
        · rintro ⟨u', hu'⟩; exact absurd hu' (by simp)
        · intro u' hu'
          have : u = u' := by
            have := ArchiveResult.created.inj hu'
            exact this
          rw [← this]
        · intro hc; exact absurd hc (by simp)
    · simp [ht]

/-- Witness for C9: a created append on the fresh state appends the one
record, and the duplicate append afterwards reports already-exists and
leaves the file identical. -/
theorem archive_resume_frame_witness :
    (archive_resume freshStorage [("url", .str "u")] [] "raw" "m" "t").2 =
      .created (.str "u") ∧
    (archive_resume freshStorage [("url", .str "u")] [] "raw" "m" "t").1.file =
      some [Line.record (mkRecord (.str "u") [("url", .str "u")] [] "raw" "m" "t")] ∧
    (archive_resume (archive_resume freshStorage [("url", .str "u")] [] "raw" "m" "t").1
        [("url", .str "u")] [] "x" "m2" "t2").2 = .alreadyExists (.str "u") ∧
    (archive_resume (archive_resume freshStorage [("url", .str "u")] [] "raw" "m" "t").1
        [("url", .str "u")] [] "x" "m2" "t2").1.file =
      (archive_resume freshStorage [("url", .str "u")] [] "raw" "m" "t").1.file :=
  ⟨by decide,
   (archive_resume_frame freshStorage [("url", .str "u")] [] "raw" "m" "t").2.1
     (.str "u") (by decide),
   by decide,
   (archive_resume_frame (archive_resume freshStorage [("url", .str "u")] [] "raw" "m" "t").1
     [("url", .str "u")] [] "x" "m2" "t2").1 ⟨.str "u", by decide⟩⟩

/-- Records freshly written by `archive_resume` satisfy the invariant:
`applied` is `false` and no `applied_at` key is present. -/
theorem appliedInv_mkRecord (u : JVal) (jd tr : List (String × JVal))
    (rc mc now : String) : appliedInv (mkRecord u jd tr rc mc now) := by
  have h1 : dictGet (mkRecord u jd tr rc mc now) "applied_at" = none := rfl
  have h2 : dictGet (mkRecord u jd tr rc mc now) "applied" = some (.bool false) := rfl
  unfold appliedInv
  rw [h1, h2]
  simp

/-- Records mutated by `mark_applied` satisfy the invariant: `applied`
is set to `true` and `applied_at` to the timestamp. -/
theorem appliedInv_markRecord (kvs : List (String × JVal)) (now : String) :
    appliedInv (markRecord kvs now) := by
  unfold appliedInv markRecord
  rw [dictGet_dictSet_same]
  rw [dictGet_dictSet_diff _ _ _ _ (by decide)]
  rw [dictGet_dictSet_same]
  simp

/-- Case analysis on what `mark_applied` does to the archive file:
either it leaves it alone, or it rewrites it as the parseable records in
order, each one mutated exactly when its url matches. -/
theorem mark_applied_file_cases (s : Storage) (url now : String) :
    (mark_applied s url now).1.file = s.file ∨
    ∃ lines, s.file = some lines ∧
      (mark_applied s url now).1.file =
        some (((parsedRecords lines).map fun kvs =>
          if dictGet kvs "url" = some (.str url) then markRecord kvs now
          else kvs).map Line.record) := by
  cases hf : s.file with
  | none =>
    left
    unfold mark_applied
    rw [hf]
    exact hf
  | some lines =>
    cases hg : ((parsedRecords lines).filter
        (fun kvs => decide (dictGet kvs "url" = some (.str url)))).getLast? with
    | none =>
      left
      unfold mark_applied
      rw [hf]
      simp [hg]
      exact hf
    | some kvs =>
      right
      refine ⟨lines, rfl, ?_⟩
      unfold mark_applied
      rw [hf]
      simp [hg]

/-- C8: the applied-at invariant is preserved by every archive
operation: if every record of the file satisfies it, then after any
`archive_resume` call and after any `mark_applied` call every record
still satisfies it (the listing and counting operations do not write).
Freshly created records satisfy it with `applied=false` and no
`applied_at`. -/
theorem applied_at_iff_applied (s : Storage) (jd tr : List (String × JVal))
    (rc mc now url mnow : String) (hinv : fileInv s.file) :
    fileInv (archive_resume s jd tr rc mc now).1.file ∧
    fileInv (mark_applied s url mnow).1.file := by
  constructor
  · rcases archive_resume_file_cases s jd tr rc mc now with h | ⟨u, _, _, h⟩
    · rw [h]; exact hinv
    · rw [h]
      intro kvs hk
      rw [Option.getD_some, parsedRecords_append] at hk
      rcases List.mem_append.mp hk with hk | hk
      · exact hinv kvs hk
      · have : kvs = mkRecord u jd tr rc mc now := by
          simpa [parsedRecords] using hk
        rw [this]
        exact appliedInv_mkRecord u jd tr rc mc now
  · rcases mark_applied_file_cases s url mnow with h | ⟨lines, hf, h⟩
    · rw [h]; exact hinv
    · rw [h]
      intro kvs hk
      rw [Option.getD_some, parsedRecords_map_record] at hk
      obtain ⟨r, hr, hrk⟩ := List.mem_map.mp hk
      by_cases hp : dictGet r "url" = some (.str url)
      · rw [← hrk, if_pos hp]
        exact appliedInv_markRecord r mnow
      · rw [← hrk, if_neg hp]
        exact hinv r (by simp [hf, hr])

/-- Witness for C8: the invariant holds vacuously on the fresh state and
is preserved by an append there and by a (not-found) mark-applied. -/
theorem applied_at_iff_applied_witness :
    fileInv (archive_resume freshStorage [("url", .str "u")] [] "raw" "m" "t").1.file ∧
    fileInv (mark_applied freshStorage "u" "t2").1.file :=
  applied_at_iff_applied freshStorage [("url", .str "u")] [] "raw" "m" "t" "u" "t2"
    (by intro kvs hk; simp [freshStorage, parsedRecords] at hk)

/-- C6: on a fresh archive, appending a `job_details` with a truthy url
reports created, and `list_archives` then returns exactly one summary
whose `url`, `company` and `role` are those of the input `job_details`,
with `applied` false and `applied_at` absent. -/
theorem append_round_trip (jd tr : List (String × JVal)) (rc mc now : String) (u : JVal)
    (hu : dictGet jd "url" = some u) (ht : jtruthy u = true) :
    (archive_resume freshStorage jd tr rc mc now).2 = .created u ∧
    list_archives (archive_resume freshStorage jd tr rc mc now).1 =
      [⟨some u, dictGet jd "company", dictGet jd "role",
        some (.str now), .bool false, none⟩] := by
  have harch : archive_resume freshStorage jd tr rc mc now =
      (⟨some [Line.record (mkRecord u jd tr rc mc now)], some [u]⟩, .created u) := by
    unfold archive_resume
    rw [hu]
    simp [ht, currentIndex, freshStorage]
  refine ⟨by rw [harch], ?_⟩
  rw [harch]
  rfl

/-- Witness for C6 at a concrete job-details payload. -/
theorem append_round_trip_witness :
    (archive_resume freshStorage
      [("url", .str "u"), ("company", .str "Acme"), ("role", .str "Dev")]
      [] "raw" "m" "t").2 = .created (.str "u") ∧
    list_archives (archive_resume freshStorage
      [("url", .str "u"), ("company", .str "Acme"), ("role", .str "Dev")]
      [] "raw" "m" "t").1 =
      [⟨some (.str "u"), some (.str "Acme"), some (.str "Dev"),
        some (.str "t"), .bool false, none⟩] :=
  append_round_trip [("url", .str "u"), ("company", .str "Acme"), ("role", .str "Dev")]
    [] "raw" "m" "t" (.str "u") rfl (by decide)

/-- C2 counterexample: on an archive holding one well-formed entry and
one interleaved line of garbage text, `archive_count` returns 2, not 1
(it counts every non-blank line), while `list_archives` does return
exactly one summary. -/
theorem archive_count_garbage_counterexample :
    archive_count ⟨some [Line.record [("url", .str "u"),
        ("job_details", .obj [("company", .str "Acme"), ("role", .str "Dev")]),
        ("archived_at", .str "t"), ("applied", .bool false)],
      Line.garbage "oops"], none⟩ = 2 ∧
    archive_count ⟨some [Line.record [("url", .str "u"),
        ("job_details", .obj [("company", .str "Acme"), ("role", .str "Dev")]),
        ("archived_at", .str "t"), ("applied", .bool false)],
      Line.garbage "oops"], none⟩ ≠ 1 ∧
    (list_archives ⟨some [Line.record [("url", .str "u"),
        ("job_details", .obj [("company", .str "Acme"), ("role", .str "Dev")]),
        ("archived_at", .str "t"), ("applied", .bool false)],
      Line.garbage "oops"], none⟩).length = 1 := by
  refine ⟨by decide, by decide, by decide⟩

/-- C2 amended: `archive_count` counts every non-blank line of the
archive file, parseable or not: with one well-formed entry and one line
of garbage text interleaved (in either order) it returns 2, while
`list_archives` returns exactly the one summary of the well-formed
entry. -/
theorem archive_count_counts_garbage (kvs : List (String × JVal)) (g : String) :
    archive_count ⟨some [Line.record kvs, Line.garbage g], none⟩ = 2 ∧
    archive_count ⟨some [Line.garbage g, Line.record kvs], none⟩ = 2 ∧
    list_archives ⟨some [Line.record kvs, Line.garbage g], none⟩ = [mkSummary kvs] ∧
    list_archives ⟨some [Line.garbage g, Line.record kvs], none⟩ = [mkSummary kvs] :=
  ⟨rfl, rfl, rfl, rfl⟩

/-- Helper: a map that rewrites an element only where a condition holds
changes at most as many positions as there are elements satisfying the
condition. -/
theorem count_changed_le {α : Type} [DecidableEq α] (P : α → Prop) [DecidablePred P]
    (g : α → α) (l : List α) :
    (((l.map fun x => if P x then g x else x).zip l).filter
        (fun q => decide (¬q.1 = q.2))).length ≤
      (l.filter fun x => decide (P x)).length := by
  induction l with
  | nil => simp
  | cons x xs ih =>
    by_cases hp : P x
    · simp only [List.map_cons, if_pos hp, List.zip_cons_cons, List.filter_cons,
        decide_eq_true hp, if_true]
      by_cases hch : g x = x
      · rw [if_neg (by simp [hch])]
        exact le_trans ih (Nat.le_succ _)
      · rw [if_pos (by simp [hch])]
        simpa using Nat.succ_le_succ ih
    · simp only [List.map_cons, if_neg hp, List.zip_cons_cons, List.filter_cons]
      rw [if_neg (by simp), if_neg (by simp [hp])]
      exact ih

/-- C4 counterexample: on an archive file holding two parseable entries
with the same url, a successful `mark_applied` call mutates both of
them — more than one entry — refuting the claim for arbitrary archive
files. -/
theorem mark_applied_two_mutations :
    (mark_applied ⟨some [Line.record [("url", .str "u"), ("applied", .bool false)],
        Line.record [("url", .str "u"), ("applied", .bool false)]], none⟩ "u" "t").1.file =
      some [Line.record [("url", .str "u"), ("applied", .bool true), ("applied_at", .str "t")],
        Line.record [("url", .str "u"), ("applied", .bool true), ("applied_at", .str "t")]] ∧
    (∃ c r, (mark_applied ⟨some [Line.record [("url", .str "u"), ("applied", .bool false)],
        Line.record [("url", .str "u"), ("applied", .bool false)]], none⟩ "u" "t").2 =
      .ok c r) ∧
    ([("url", .str "u"), ("applied", .bool true), ("applied_at", .str "t")] :
        List (String × JVal)) ≠ [("url", .str "u"), ("applied", .bool false)] :=
  ⟨by decide, ⟨.str "Unknown", .str "Unknown", by decide⟩, by decide⟩

/-- C4 amended: a successful `mark_applied` rewrites the archive file as
exactly the parseable entries of the old file in their original relative
order, replacing precisely those whose url equals the argument by their
marked version and passing every other entry through unchanged (so at
most one entry is mutated whenever at most one entry carries the url, as
in any archive produced by `archive_resume` alone); blank and
unparseable lines are dropped by the rewrite. -/
theorem mark_applied_rewrite (s : Storage) (lines : List Line) (url now : String)
    (hf : s.file = some lines)
    (hfound : ∃ kvs ∈ parsedRecords lines, dictGet kvs "url" = some (.str url)) :
    (∃ c r, (mark_applied s url now).2 = .ok c r) ∧
    (mark_applied s url now).1.file =
      some (((parsedRecords lines).map fun kvs =>
        if dictGet kvs "url" = some (.str url) then markRecord kvs now
        else kvs).map Line.record) ∧
    ((((parsedRecords lines).map fun kvs =>
        if dictGet kvs "url" = some (.str url) then markRecord kvs now
        else kvs).zip (parsedRecords lines)).filter
          (fun q => decide (¬q.1 = q.2))).length ≤
      ((parsedRecords lines).filter
        (fun kvs => decide (dictGet kvs "url" = some (.str url)))).length := by
  have hne : ((parsedRecords lines).filter
      (fun kvs => decide (dictGet kvs "url" = some (.str url)))) ≠ [] := by
    obtain ⟨kvs, hk, hu⟩ := hfound
    intro hnil
    rw [List.filter_eq_nil_iff] at hnil
    exact hnil kvs hk (decide_eq_true hu)
  cases hg : ((parsedRecords lines).filter
      (fun kvs => decide (dictGet kvs "url" = some (.str url)))).getLast? with
  | none => exact absurd (List.getLast?_eq_none_iff.mp hg) hne
  | some kvs =>
    refine ⟨⟨jdGetD kvs "company", jdGetD kvs "role", ?_⟩, ?_, ?_⟩
    · unfold mark_applied
      rw [hf]
      simp [hg]
    · unfold mark_applied
      rw [hf]
      simp [hg]
    · exact count_changed_le (fun kvs => dictGet kvs "url" = some (.str url))
        (fun kvs => markRecord kvs now) (parsedRecords lines)

/-- Witness for C4 amended, on a single-entry archive. -/
theorem mark_applied_rewrite_witness :
    (∃ c r, (mark_applied ⟨some [Line.record [("url", .str "u"), ("applied", .bool false)]],
        none⟩ "u" "t").2 = .ok c r) ∧
    (mark_applied ⟨some [Line.record [("url", .str "u"), ("applied", .bool false)]],
        none⟩ "u" "t").1.file =
      some ((([[("url", .str "u"), ("applied", .bool false)]] :
          List (List (String × JVal))).map fun kvs =>
        if dictGet kvs "url" = some (.str "u") then markRecord kvs "t"
        else kvs).map Line.record) := by
  have h := mark_applied_rewrite
    ⟨some [Line.record [("url", .str "u"), ("applied", .bool false)]], none⟩
    [Line.record [("url", .str "u"), ("applied", .bool false)]] "u" "t" rfl
    ⟨[("url", .str "u"), ("applied", .bool false)], by simp [parsedRecords], by decide⟩
  exact ⟨h.1, h.2.1⟩

/-- C5: on a fresh archive, appending a job with url `u` and then
marking `u` applied succeeds; `list_archives` then shows the one summary
for `u` with `applied` true and a non-null `applied_at`;
`archive_count` is unchanged across the `mark_applied` call; and
`applied_count` rises from 0 to 1. -/
theorem apply_transition (jd tr : List (String × JVal)) (rc mc now now' : String)
    (u : String) (hu : dictGet jd "url" = some (.str u)) (hne : u ≠ "") :
    (archive_resume freshStorage jd tr rc mc now).2 = .created (.str u) ∧
    (∃ c r, (mark_applied (archive_resume freshStorage jd tr rc mc now).1 u now').2 =
      .ok c r) ∧
    list_archives (mark_applied (archive_resume freshStorage jd tr rc mc now).1 u now').1 =
      [⟨some (.str u), dictGet jd "company", dictGet jd "role",
        some (.str now), .bool true, some (.str now')⟩] ∧
    archive_count (mark_applied (archive_resume freshStorage jd tr rc mc now).1 u now').1 =
      archive_count (archive_resume freshStorage jd tr rc mc now).1 ∧
    applied_count (archive_resume freshStorage jd tr rc mc now).1 = 0 ∧
    applied_count (mark_applied (archive_resume freshStorage jd tr rc mc now).1 u now').1 =
      1 := by
  have ht : jtruthy (.str u) = true := by simp [jtruthy, hne]
  have harch : archive_resume freshStorage jd tr rc mc now =
      (⟨some [Line.record (mkRecord (.str u) jd tr rc mc now)], some [.str u]⟩,
       .created (.str u)) := by
    unfold archive_resume
    rw [hu]
    simp [ht, currentIndex, freshStorage]
  have harch1 : (archive_resume freshStorage jd tr rc mc now).1 =
      ⟨some [Line.record (mkRecord (.str u) jd tr rc mc now)], some [.str u]⟩ := by
    rw [harch]
  have hget : dictGet (mkRecord (.str u) jd tr rc mc now) "url" = some (.str u) := rfl
  have hmark : mark_applied
      (⟨some [Line.record (mkRecord (.str u) jd tr rc mc now)], some [.str u]⟩ : Storage)
      u now' =
      (⟨some [Line.record (markRecord (mkRecord (.str u) jd tr rc mc now) now')],
          some [.str u]⟩,
       .ok (jdGetD (mkRecord (.str u) jd tr rc mc now) "company")
           (jdGetD (mkRecord (.str u) jd tr rc mc now) "role")) := by
    unfold mark_applied
    simp [parsedRecords, hget]
  refine ⟨by rw [harch], ?_, ?_, ?_, ?_, ?_⟩
  · rw [harch1, hmark]
    exact ⟨_, _, rfl⟩
  · rw [harch1, hmark]
    rfl
  · rw [harch1, hmark]
    rfl
  · rw [harch1]
    rfl
  · rw [harch1, hmark]
    rfl

/-- Witness for C5 at a concrete job-details payload. -/
theorem apply_transition_witness :
    (archive_resume freshStorage
      [("url", .str "u"), ("company", .str "Acme"), ("role", .str "Dev")]
      [] "raw" "m" "t1").2 = .created (.str "u") ∧
    (∃ c r, (mark_applied (archive_resume freshStorage
      [("url", .str "u"), ("company", .str "Acme"), ("role", .str "Dev")]
      [] "raw" "m" "t1").1 "u" "t2").2 = .ok c r) ∧
    list_archives (mark_applied (archive_resume freshStorage
      [("url", .str "u"), ("company", .str "Acme"), ("role", .str "Dev")]
      [] "raw" "m" "t1").1 "u" "t2").1 =
      [⟨some (.str "u"), some (.str "Acme"), some (.str "Dev"),
        some (.str "t1"), .bool true, some (.str "t2")⟩] ∧
    archive_count (mark_applied (archive_resume freshStorage
      [("url", .str "u"), ("company", .str "Acme"), ("role", .str "Dev")]
      [] "raw" "m" "t1").1 "u" "t2").1 =
      archive_count (archive_resume freshStorage
      [("url", .str "u"), ("company", .str "Acme"), ("role", .str "Dev")]
      [] "raw" "m" "t1").1 ∧
    applied_count (archive_resume freshStorage
      [("url", .str "u"), ("company", .str "Acme"), ("role", .str "Dev")]
      [] "raw" "m" "t1").1 = 0 ∧
    applied_count (mark_applied (archive_resume freshStorage
      [("url", .str "u"), ("company", .str "Acme"), ("role", .str "Dev")]
      [] "raw" "m" "t1").1 "u" "t2").1 = 1 :=
  apply_transition [("url", .str "u"), ("company", .str "Acme"), ("role", .str "Dev")]
    [] "raw" "m" "t1" "t2" "u" rfl (by decide)

/-- An `archive_resume` call for a url already in the cached index is a
complete no-op: same state back, already-exists reported. -/
theorem runAppend_already (s : Storage) (idx : List JVal) (u : JVal) (a : AppendArgs)
    (hidx : s.urlIndex = some idx) (hmem : u ∈ idx)
    (hu : dictGet a.job_details "url" = some u) (ht : jtruthy u = true) :
    runAppend s a = (s, .alreadyExists u) := by
  have hcur : currentIndex s = idx := by unfold currentIndex; rw [hidx]
  unfold runAppend archive_resume
  rw [hu]
  simp only [ht, if_true, hcur, hmem, if_pos]
  rw [← hidx]

/-- Iterating `archive_resume` on a url already in the cached index
leaves the state untouched and reports already-exists every time. -/
theorem runAppends_already (calls : List AppendArgs) (s : Storage) (idx : List JVal)
    (u : JVal) (hidx : s.urlIndex = some idx) (hmem : u ∈ idx) (ht : jtruthy u = true)
    (hcalls : ∀ b ∈ calls, dictGet b.job_details "url" = some u) :
    runAppends s calls = (s, calls.map fun _ => .alreadyExists u) := by
  induction calls with
  | nil => rfl
  | cons a rest ih =>
    have h1 : runAppend s a = (s, .alreadyExists u) :=
      runAppend_already s idx u a hidx hmem (hcalls a (List.mem_cons_self a rest)) ht
    simp only [runAppends, h1, List.map_cons]
    rw [ih (fun b hb => hcalls b (List.mem_cons_of_mem a hb))]

/-- C1: append is idempotent per url.  Starting from any state whose
index cache is absent or accurate and whose archive does not yet hold
url `u`, the first `archive_resume` call with a truthy url `u` reports
created and appends exactly one record built from that call's payload;
every later call with the same url — whatever its payload — reports
already-exists and changes nothing; and the final archive holds exactly
one record for `u`, the one of the first call. -/
theorem archive_resume_idempotent_per_url (s : Storage) (a : AppendArgs)
    (rest : List AppendArgs) (u : JVal) (hc : cacheOk s)
    (hu : dictGet a.job_details "url" = some u) (ht : jtruthy u = true)
    (habs : u ∉ buildUrlIndexLines (s.file.getD []))
    (hrest : ∀ b ∈ rest, dictGet b.job_details "url" = some u) :
    (runAppend s a).2 = .created u ∧
    (runAppends (runAppend s a).1 rest).2 = rest.map (fun _ => .alreadyExists u) ∧
    (runAppends (runAppend s a).1 rest).1 = (runAppend s a).1 ∧
    (runAppend s a).1.file = some (s.file.getD [] ++
      [Line.record (mkRecord u a.job_details a.tailored_resume a.raw_content
        a.machine_id a.now)]) ∧
    ((parsedRecords ((runAppends (runAppend s a).1 rest).1.file.getD [])).filter
        (fun kvs => decide (dictGet kvs "url" = some u))) =
      [mkRecord u a.job_details a.tailored_resume a.raw_content a.machine_id a.now] := by
  have hcur : currentIndex s = buildUrlIndexLines (s.file.getD []) :=
    currentIndex_of_cacheOk s hc
  have hstep : runAppend s a =
      (⟨some (s.file.getD [] ++ [Line.record (mkRecord u a.job_details
          a.tailored_resume a.raw_content a.machine_id a.now)]),
        some (buildUrlIndexLines (s.file.getD []) ++ [u])⟩, .created u) := by
    unfold runAppend archive_resume
    rw [hu]
    simp [ht, hcur, habs]
  have hmem : u ∈ buildUrlIndexLines (s.file.getD []) ++ [u] := by simp
  have hrests := runAppends_already rest (runAppend s a).1
    (buildUrlIndexLines (s.file.getD []) ++ [u]) u (by rw [hstep]) hmem ht hrest
  refine ⟨by rw [hstep], by rw [hrests], by rw [hrests], by rw [hstep], ?_⟩
  rw [hrests, hstep]
  rw [Option.getD_some, parsedRecords_append, List.filter_append]
  rw [filter_url_of_not_mem _ u habs]
  have hgu : dictGet (mkRecord u a.job_details a.tailored_resume a.raw_content
      a.machine_id a.now) "url" = some u := rfl
  simp [parsedRecords, hgu]

/-- Witness for C1: two appends of the same url with different payloads
on the fresh state — the second is a pure no-op and only the first
call's record is stored. -/
theorem archive_resume_idempotent_witness :
    (runAppend freshStorage
      ⟨[("url", .str "u"), ("company", .str "A")], [], "r1", "m1", "t1"⟩).2 =
      .created (.str "u") ∧
    (runAppends (runAppend freshStorage
      ⟨[("url", .str "u"), ("company", .str "A")], [], "r1", "m1", "t1"⟩).1
      [⟨[("url", .str "u"), ("company", .str "B")], [], "r2", "m2", "t2"⟩]).2 =
      [.alreadyExists (.str "u")] ∧
    (runAppends (runAppend freshStorage
      ⟨[("url", .str "u"), ("company", .str "A")], [], "r1", "m1", "t1"⟩).1
      [⟨[("url", .str "u"), ("company", .str "B")], [], "r2", "m2", "t2"⟩]).1 =
      (runAppend freshStorage
      ⟨[("url", .str "u"), ("company", .str "A")], [], "r1", "m1", "t1"⟩).1 ∧
    (runAppend freshStorage
      ⟨[("url", .str "u"), ("company", .str "A")], [], "r1", "m1", "t1"⟩).1.file =
      some [Line.record (mkRecord (.str "u") [("url", .str "u"), ("company", .str "A")]
        [] "r1" "m1" "t1")] ∧
    ((parsedRecords (((runAppends (runAppend freshStorage
        ⟨[("url", .str "u"), ("company", .str "A")], [], "r1", "m1", "t1"⟩).1
        [⟨[("url", .str "u"), ("company", .str "B")], [], "r2", "m2", "t2"⟩]).1.file).getD
          [])).filter
        (fun kvs => decide (dictGet kvs "url" = some (.str "u")))) =
      [mkRecord (.str "u") [("url", .str "u"), ("company", .str "A")] [] "r1" "m1" "t1"] := by
  have h := archive_resume_idempotent_per_url freshStorage
    ⟨[("url", .str "u"), ("company", .str "A")], [], "r1", "m1", "t1"⟩
    [⟨[("url", .str "u"), ("company", .str "B")], [], "r2", "m2", "t2"⟩]
    (.str "u") (Or.inl rfl) rfl (by decide)
    (by simp [freshStorage, buildUrlIndexLines])
    (by intro b hb; simp only [List.mem_singleton] at hb; subst hb; rfl)
  exact ⟨h.1, h.2.1, h.2.2.1, h.2.2.2.1, h.2.2.2.2⟩
